import Mathlib

/-!
Verification development for the staging-comment-action ledger codec and
reconciler.  The definitions below are a shallow embedding of the
TypeScript sources:

* `src/src/templates.ts` — the codec (sentinel check, Markdown-table
  encode/decode of build entries);
* `src/unnamed/part_001` (`main.ts`), function `updateState` — the
  reconciler that merges a new build entry into a decoded state.

JavaScript strings are modelled as Lean `String`/`List Char`; the relevant
JS string operations (`trim`, `split`, `startsWith`, one-shot
`String.replace`, and the three regexes of the source) are embedded as
executable list functions whose semantics are spelled out next to each
definition.
-/

namespace StagingComment

/-- Whitespace class used by JS `String.trim` and the regex class `\s`
(restricted to the code points that can actually occur here: space, tab,
newline, carriage return, vertical tab, form feed). -/
def jsWs (c : Char) : Bool :=
  c = ' ' || c = '\t' || c = '\n' || c = '\r' || c = Char.ofNat 11 || c = Char.ofNat 12

/-- Drop leading whitespace, as the left half of JS `trim`. -/
def dropLeadingWs (l : List Char) : List Char := l.dropWhile jsWs

/-- Drop trailing whitespace, as the right half of JS `trim`. -/
def dropTrailingWs (l : List Char) : List Char :=
  (l.reverse.dropWhile jsWs).reverse

/-- JS `String.prototype.trim` on the character list. -/
def trimChars (l : List Char) : List Char := dropLeadingWs (dropTrailingWs l)

/-- JS `String.prototype.trim`. -/
def jsTrim (s : String) : String := ⟨trimChars s.data⟩

/-- JS `s.startsWith(p)` on character lists (`startsWithL s p`). -/
def startsWithL : List Char → List Char → Bool
  | _, [] => true
  | [], _ :: _ => false
  | c :: cs, p :: ps => decide (c = p) && startsWithL cs ps

/-- JS `String.prototype.split` with a single-character separator:
splits at every occurrence of `ch`, keeping empty pieces. -/
def splitOnChar (ch : Char) : List Char → List (List Char)
  | [] => [[]]
  | c :: rest =>
    if c = ch then [] :: splitOnChar ch rest
    else
      match splitOnChar ch rest with
      | [] => [[c]]
      | g :: gs => (c :: g) :: gs

/-- The backtick character (code point 96). -/
def backtick : Char := '\x60'

/-- JS `s.replace(/X/, "")` for a single character `X` without the `g`
flag: removes only the first occurrence. -/
def removeFirstChar (x : Char) : List Char → List Char
  | [] => []
  | c :: rest => if c = x then rest else c :: removeFirstChar x rest

/-- Strip a trailing carriage return, completing the embedding of
`body.split(/\r?\n/)` as split-on-`'\n'` followed by this cleanup. -/
def dropTrailingCR (l : List Char) : List Char :=
  match l.getLast? with
  | some c => if c = '\r' then l.dropLast else l
  | none => l

/-- Runtime shape of `BuildEntry` (templates.ts).  `emoji` and `status`
are plain strings at runtime: the TypeScript `as BuildEmoji` /
`as BuildStatus` casts in `parseBuildEntry` perform no runtime check. -/
structure BuildEntry where
  emoji : String
  status : String
  deployUrl : Option String
  commitSha : String
  commitLink : String
  buildTime : String
  buildDuration : Option String
  runLink : String
deriving DecidableEq, Repr

/-- `BuildState` (templates.ts): the latest entry plus the previous ones. -/
structure BuildState where
  latest : BuildEntry
  previous : List BuildEntry
deriving DecidableEq, Repr

/-- `CommentArgs` (templates.ts). -/
structure CommentArgs where
  prId : String
  url : String
  tag : Option String
  state : BuildState

/-- The three legal values of the `BuildEmoji` enum. -/
@[reducible] def legalEmoji (s : String) : Prop := s = "🟡" || s = "🟢" || s = "🔴"

/-- The three legal values of the `BuildStatus` enum. -/
@[reducible] def legalStatus (s : String) : Prop :=
  s = "In&#8209;progress" || s = "Success" || s = "Failure"

/-- `COMMENT_TAG` (templates.ts line 54): the ownership sentinel,
optionally parameterized by a tag. -/
def COMMENT_TAG (tag : Option String) : String :=
  "<!-- ci/staging-comment-action" ++
    (match tag with | some t => "-" ++ t | none => "") ++ " -->"

/-- `HEADER_ROW` (templates.ts line 56). -/
def HEADER_ROW : String := "| | Status | Url | Commit | Started at | Duration | Job |"

/-- `SEPARATOR_ROW` (templates.ts line 57). -/
def SEPARATOR_ROW : String := "|-|-|-|-|-|-|-|"

/-- `NULL` (templates.ts line 58): the placeholder token for an absent
optional cell. -/
def NULL : String := "~"

/-- The placeholder token as a character list. -/
def NULLC : List Char := ['~']

/-- `isStagingComment` (templates.ts lines 65-68). -/
def isStagingComment (body : String) (tag : Option String) : Bool :=
  startsWithL (jsTrim body).data (COMMENT_TAG tag).data

/-- `BUILD_ENTRY_REGEX = /^\|.*\|\s*$/` (templates.ts line 70).  The line
matches iff, after discarding trailing whitespace (`\s*$`), it starts and
ends with `|`, has length at least 2, and its interior contains no line
terminator (the JS `.` does not match `\r` or `\n`). -/
def matchesBuildEntryRegex (l : List Char) : Bool :=
  match dropTrailingWs l with
  | c :: rest =>
    decide (c = '|') && decide (rest ≠ []) && decide (rest.getLast? = some '|') &&
      decide ('\r' ∉ rest.dropLast) && decide ('\n' ∉ rest.dropLast)
  | [] => false

/-- Finds the split of `l` as `a ++ ']' :: '(' :: b` at the last
occurrence of `](`, i.e. the split the greedy first group of
`MARKDOWN_LINK_REGEX = /^\[(.*)\]\((.*)\)$/` selects. -/
def lastLinkSplit : List Char → Option (List Char × List Char)
  | [] => none
  | c :: rest =>
    match lastLinkSplit rest with
    | some (a, b) => some (c :: a, b)
    | none =>
      if c = ']' then
        match rest with
        | '(' :: b => some ([], b)
        | _ => none
      else none

/-- `parseLink` (templates.ts lines 132-136): match
`/^\[(.*)\]\((.*)\)$/` and return the two groups.  The input must carry no
line terminator (JS `.` matches neither `\n` nor `\r`), start with `[`,
end with `)`, and contain `](` in between; the greedy first group takes
the last such occurrence. -/
def parseLink (l : List Char) : Except String (List Char × List Char) :=
  if '\n' ∈ l ∨ '\r' ∈ l then
    .error ("Unable to parse markdown link " ++ String.mk l)
  else
    match l with
    | c :: rest =>
      if c = '[' ∧ rest.getLast? = some ')' then
        match lastLinkSplit rest.dropLast with
        | some (a, b) => .ok (a, b)
        | none => .error ("Unable to parse markdown link " ++ String.mk l)
      else .error ("Unable to parse markdown link " ++ String.mk l)
    | [] => .error ("Unable to parse markdown link " ++ String.mk l)

/-- The cell pipeline of `parseBuildEntry` (templates.ts lines 101-107):
trim the line, split on `|`, trim each cell, keep the non-empty ones.
(The two `replace` calls of the source use the regexes `/^(|)/` and
`/(|)$/`, which match the empty string, so replacing their first match
with the empty string changes nothing and they are omitted here.) -/
def splitCells (line : List Char) : List (List Char) :=
  ((splitOnChar '|' (trimChars line)).map trimChars).filter (fun c => decide (c ≠ []))

/-- `parseBuildEntry` (templates.ts lines 100-123).  The source checks
`cells.length !== 7` and then reads `cells[0]`..`cells[6]`; the
seven-element match below performs the same discrimination.  Note that
`cells[0] as BuildEmoji` and `cells[1] as BuildStatus` are unchecked
TypeScript casts, and that `commitSha.replace(/`/, "")` removes only the
first backtick. -/
def parseBuildEntry (line : List Char) : Except String BuildEntry :=
  match splitCells line with
  | [c0, c1, c2, c3, c4, c5, c6] =>
    match parseLink c3 with
    | .error e => .error e
    | .ok (commitSha0, commitLink) =>
      match (if c2 = NULLC then (.ok none : Except String (Option (List Char)))
             else
               match parseLink c2 with
               | .error e => .error e
               | .ok (_, u) => .ok (some u)) with
      | .error e => .error e
      | .ok deployUrl =>
        match parseLink c6 with
        | .error e => .error e
        | .ok (_, runLink) =>
          .ok {
            emoji := ⟨c0⟩
            status := ⟨c1⟩
            deployUrl := deployUrl.map (fun u => (⟨u⟩ : String))
            commitSha := ⟨removeFirstChar backtick commitSha0⟩
            commitLink := ⟨commitLink⟩
            buildTime := ⟨c4⟩
            buildDuration := if c5 = NULLC then none else some ⟨c5⟩
            runLink := ⟨runLink⟩ }
  | _ => .error "Incorrect number of cells in build entry"

/-- The line filter of `getBuildState` (templates.ts lines 82-85): the
line matches the row regex and starts with neither the header row nor the
separator row. -/
def isEntryLine (line : List Char) : Bool :=
  matchesBuildEntryRegex line &&
    !(startsWithL line HEADER_ROW.data || startsWithL line SEPARATOR_ROW.data)

/-- The collection loop of `getBuildState` (templates.ts lines 81-88):
parse every selected line in order, propagating the first parse error. -/
def collectEntries : List (List Char) → Except String (List BuildEntry)
  | [] => .ok []
  | line :: rest =>
    if isEntryLine line then
      match parseBuildEntry line with
      | .error e => .error e
      | .ok b =>
        match collectEntries rest with
        | .error e => .error e
        | .ok bs => .ok (b :: bs)
    else collectEntries rest

/-- `body.split(/\r?\n/)` (templates.ts line 79). -/
def ledgerLines (body : String) : List (List Char) :=
  (splitOnChar '\n' body.data).map dropTrailingCR

/-- `getBuildState` (templates.ts lines 78-93): parse all entry rows;
fail if any row fails or no row was found, else the first row is the
latest entry and the rest are the previous entries. -/
def getBuildState (body : String) : Except String BuildState :=
  match collectEntries (ledgerLines body) with
  | .error e => .error e
  | .ok [] => .error ("Too few build entries parsed from comment " ++ body)
  | .ok (b :: rest) => .ok { latest := b, previous := rest }

/-- `link` (templates.ts line 234). -/
def link (text url : String) : String := "[" ++ text ++ "](" ++ url ++ ")"

/-- `LINK_NOTE` (templates.ts lines 138-139). -/
def LINK_NOTE : String :=
  "Semi-permanent links to the built versions of each commit are available in the details below, which are kept for 2 weeks after they are created."

/-- `entry` (templates.ts lines 202-217): render one build entry as a
table row (the template ends in a newline which the final `.trim()`
removes). -/
def entry (e : BuildEntry) : String :=
  jsTrim ("| " ++ e.emoji ++ " | " ++ e.status ++ " | " ++
    (match e.deployUrl with | some u => link "link" u | none => NULL) ++ " | " ++
    link ("`" ++ e.commitSha ++ "`") e.commitLink ++ " | " ++ e.buildTime ++ " | " ++
    (match e.buildDuration with | some d => d | none => NULL) ++ " | " ++
    link "link" e.runLink ++ " |\n")

/-- `previous` (templates.ts lines 250-257): render the previous builds
section body. -/
def previous (previousBuilds : List BuildEntry) : String :=
  if previousBuilds.length > 0 then
    jsTrim ("\n" ++ HEADER_ROW ++ "\n" ++ SEPARATOR_ROW ++ "\n" ++
      String.intercalate "\n" (previousBuilds.map entry) ++ "\n      ")
  else "No previous builds found"

/-- `details` (templates.ts lines 184-197). -/
def details (state : BuildState) : String :=
  "\n#### Build details\n\n" ++ HEADER_ROW ++ "\n" ++ SEPARATOR_ROW ++ "\n" ++
    entry state.latest ++
    "\n\n<details><summary>Previous builds</summary>\n<p>\n\n" ++
    previous state.previous ++ "\n\n</p>\n</details>"

/-- `building` (templates.ts lines 171-179). -/
def building (a : CommentArgs) : String :=
  jsTrim ("\n" ++ COMMENT_TAG a.tag ++
    "\nA deploy preview is being created for this Pull Request (#" ++ a.prId ++
    "), which will be available at " ++ a.url ++ " once completed.\n\n" ++
    LINK_NOTE ++ "\n\n" ++ details a.state ++ "\n")

/-- `successful` (templates.ts lines 158-166); the template carries two
spaces before the sentinel which the `.trim()` removes together with the
leading newline. -/
def successful (a : CommentArgs) : String :=
  jsTrim ("\n  " ++ COMMENT_TAG a.tag ++
    "\nA deploy preview has been created for this Pull Request (#" ++ a.prId ++
    "), which is available at " ++ a.url ++ ".\n\n" ++
    LINK_NOTE ++ "\n\n" ++ details a.state ++ "\n")

/-- `failed` (templates.ts lines 144-153); this template is not trimmed
in the source. -/
def failed (a : CommentArgs) : String :=
  "\n" ++ COMMENT_TAG a.tag ++
    "\nThere was an error building a deploy preview for the last commit. For more details, check the output of the action run [here](" ++
    a.state.latest.runLink ++ ").\n\n" ++ LINK_NOTE ++ "\n\n" ++
    details a.state ++ "\n"

/-- The state-update logic of `updateState` (main.ts lines 305-336) for a
present prior state: if the latest entry's key matches the short sha the
latest entry is replaced; otherwise every matching previous entry is
overwritten in place (`Object.assign` copies all fields of `current`);
otherwise the new entry is promoted to latest and the old latest entry is
pushed onto the front of the previous list. -/
def reconcile (current : BuildEntry) (shortSha : String) (state : BuildState) : BuildState :=
  if state.latest.commitSha = shortSha then
    { state with latest := current }
  else if state.previous.any (fun e => decide (e.commitSha = shortSha)) then
    { state with
        previous := state.previous.map
          (fun e => if e.commitSha = shortSha then current else e) }
  else
    { latest := current, previous := state.latest :: state.previous }

/-- `updateState` (main.ts lines 298-339): decode the prior comment body
when one exists and reconcile the current entry into it, else start a
fresh state. -/
def updateState (current : BuildEntry) (commentBody : Option String)
    (shortSha : String) : Except String BuildState :=
  match commentBody with
  | some body =>
    match getBuildState body with
    | .error e => .error e
    | .ok state => .ok (reconcile current shortSha state)
  | none => .ok { latest := current, previous := [] }

/-- Error-ness of a decode result. -/
def isErr : Except String α → Bool
  | .error _ => true
  | .ok _ => false

end StagingComment

namespace StagingComment

/-- The key multiset of a state: `commitSha` of `latest` and of every
previous entry, in order. -/
def stateKeys (st : BuildState) : List String :=
  st.latest.commitSha :: st.previous.map (fun e => e.commitSha)

/-- A sample entry used to instantiate witnesses, keyed by its sha. -/
def sampleEntry (sha : String) : BuildEntry :=
  { emoji := "🟡", status := "In&#8209;progress", deployUrl := none,
    commitSha := sha, commitLink := "https://g/c", buildTime := "Jan 1",
    buildDuration := none, runLink := "https://g/r" }


/-- A two-entry prior state used by the C9 witness. -/
def c9State : BuildState :=
  { latest := sampleEntry "a1a1a1a", previous := [sampleEntry "b2b2b2b"] }

/-- Reconciling the same entry twice at its own key changes nothing after
the first application. -/
theorem reconcile_idem (S : BuildState) (e : BuildEntry) :
    reconcile e e.commitSha (reconcile e e.commitSha S) =
      reconcile e e.commitSha S := by
  by_cases h1 : S.latest.commitSha = e.commitSha
  · simp [reconcile, h1]
  · by_cases h2 : S.previous.any (fun x => decide (x.commitSha = e.commitSha)) = true
    · obtain ⟨x, hx, hsha⟩ := List.any_eq_true.mp h2
      simp only [decide_eq_true_eq] at hsha
      have hany : (S.previous.map
          (fun y => if y.commitSha = e.commitSha then e else y)).any
            (fun y => decide (y.commitSha = e.commitSha)) = true :=
        List.any_eq_true.mpr ⟨e, List.mem_map.mpr ⟨x, hx, by simp [hsha]⟩, by simp⟩
      simp [reconcile, h1, h2, hany, List.map_map]
      intro a _ hc
      by_cases ha' : a.commitSha = e.commitSha
      · simp [ha']
      · simp [ha'] at hc
    · simp [reconcile, h1, h2]

/-- Claim C3: promoting a genuinely new key.  If the new entry's key
differs from the latest entry's key and from the single history entry's
key, reconciliation makes the new entry the head and pushes the old
latest entry onto the front of the untouched history. -/
theorem new_key_promotion (A B C : BuildEntry)
    (hA : C.commitSha ≠ A.commitSha) (hB : C.commitSha ≠ B.commitSha) :
    reconcile C C.commitSha { latest := A, previous := [B] } =
      { latest := C, previous := [A, B] } := by
  simp [reconcile, Ne.symm hA, Ne.symm hB]

theorem new_key_promotion_witness :
    reconcile (sampleEntry "c3c3c3c") (sampleEntry "c3c3c3c").commitSha
      { latest := sampleEntry "a1a1a1a", previous := [sampleEntry "b2b2b2b"] } =
      { latest := sampleEntry "c3c3c3c",
        previous := [sampleEntry "a1a1a1a", sampleEntry "b2b2b2b"] } :=
  new_key_promotion (sampleEntry "a1a1a1a") (sampleEntry "b2b2b2b")
    (sampleEntry "c3c3c3c") (by decide) (by decide)

/-- The updated entry used by the mid-history patch claim: the first
history entry with a changed status. -/
def patchedB : BuildEntry := { (sampleEntry "b2b2b2b") with status := "Success" }

/-- Claim C4: patching an entry in the middle of history.  If the updated
entry shares the key of the first history entry and the three prior keys
are pairwise distinct, the matching history entry is replaced in place
while the head and the ordering stay untouched. -/
theorem mid_history_patch (A B C B' : BuildEntry)
    (hkey : B'.commitSha = B.commitSha)
    (hAB : A.commitSha ≠ B.commitSha) (_hAC : A.commitSha ≠ C.commitSha)
    (hBC : B.commitSha ≠ C.commitSha) :
    reconcile B' B'.commitSha { latest := A, previous := [B, C] } =
      { latest := A, previous := [B', C] } := by
  simp [reconcile, hkey, hAB, Ne.symm hBC]

theorem mid_history_patch_witness :
    reconcile patchedB patchedB.commitSha
      { latest := sampleEntry "a1a1a1a",
        previous := [sampleEntry "b2b2b2b", sampleEntry "d4d4d4d"] } =
      { latest := sampleEntry "a1a1a1a",
        previous := [patchedB, sampleEntry "d4d4d4d"] } :=
  mid_history_patch (sampleEntry "a1a1a1a") (sampleEntry "b2b2b2b")
    (sampleEntry "d4d4d4d") patchedB
    (by decide) (by decide) (by decide) (by decide)

/-- Claim C5: idempotent head update.  Reconciling the same entry twice,
matching on its own key, leaves the head equal to the once-reconciled
head and never grows the history. -/
theorem idempotent_head_update (S : BuildState) (e : BuildEntry) :
    (reconcile e e.commitSha (reconcile e e.commitSha S)).latest =
      (reconcile e e.commitSha S).latest ∧
    (reconcile e e.commitSha (reconcile e e.commitSha S)).previous.length =
      (reconcile e e.commitSha S).previous.length := by
  rw [reconcile_idem]
  exact ⟨rfl, rfl⟩

/-- Claim C9: reconciliation preserves key uniqueness.  If no two entries
across `latest` and `previous` share a `commitSha`, the reconciled state
has the same property. -/
theorem uniqueness_preserved (st : BuildState) (e : BuildEntry)
    (h : (stateKeys st).Nodup) :
    (stateKeys (reconcile e e.commitSha st)).Nodup := by
  simp only [stateKeys] at h ⊢
  by_cases h1 : st.latest.commitSha = e.commitSha
  · rw [h1] at h
    simpa [reconcile, h1] using h
  · by_cases h2 : st.previous.any (fun x => decide (x.commitSha = e.commitSha)) = true
    · have hmap : st.previous.map
          ((fun x => x.commitSha) ∘ (fun x => if x.commitSha = e.commitSha then e else x)) =
          st.previous.map (fun x => x.commitSha) :=
        List.map_congr_left (fun y _ => by
          by_cases hy : y.commitSha = e.commitSha <;> simp [hy])
      simpa [reconcile, h1, h2, List.map_map, hmap] using h
    · have h2' : ∀ x ∈ st.previous, ¬(x.commitSha = e.commitSha) := by
        intro x hx hcontra
        exact h2 (List.any_eq_true.mpr ⟨x, hx, by simp [hcontra]⟩)
      simp only [List.nodup_cons, List.mem_map] at h
      simp [reconcile, h1, h2, List.nodup_cons, List.mem_cons, List.mem_map]
      obtain ⟨hnm, hnd⟩ := h
      push_neg at hnm
      exact ⟨⟨fun hc => h1 hc.symm, h2'⟩, hnm, hnd⟩

theorem uniqueness_preserved_witness :
    (stateKeys c9State).Nodup ∧
    (stateKeys (reconcile (sampleEntry "c3c3c3c")
      (sampleEntry "c3c3c3c").commitSha c9State)).Nodup :=
  ⟨by decide, uniqueness_preserved c9State (sampleEntry "c3c3c3c") (by decide)⟩


/-- `String.mk` and `String.data` are inverse. -/
theorem mkStr_data (l : List Char) : (String.mk l).data = l := rfl

/-- `String.append` concatenates the character lists. -/
theorem data_append (a b : String) : (a ++ b).data = a.data ++ b.data := rfl

/-- Distinct strings have distinct character lists. -/
theorem data_ne_of_ne {a b : String} (h : a ≠ b) : a.data ≠ b.data := by
  intro hd
  exact h (by cases a; cases b; cases hd; rfl)

/-- `startsWithL` ignores a common prefix of string and pattern. -/
theorem startsWithL_append_cancel (p x y : List Char) :
    startsWithL (p ++ x) (p ++ y) = startsWithL x y := by
  induction p with
  | nil => rfl
  | cons c cs ih => simp [startsWithL, ih]

/-- Core of sentinel scoping: for distinct space-free tags `a` and `b`,
the pattern `a ++ " -->"` is not a prefix of `b ++ " -->" ++ s`. -/
theorem tag_suffix_no_cross (a : List Char) :
    ∀ b s, a ≠ b → ' ' ∉ a → ' ' ∉ b →
    startsWithL (b ++ ' ' :: '-' :: '-' :: '>' :: s)
      (a ++ [' ', '-', '-', '>']) = false := by
  induction a with
  | nil =>
    intro b s hne _ hb
    cases b with
    | nil => exact absurd rfl hne
    | cons c t =>
      simp only [List.mem_cons, not_or] at hb
      simp [startsWithL, Ne.symm hb.1]
  | cons c t ih =>
    intro b s hne ha hb
    simp only [List.mem_cons, not_or] at ha
    cases b with
    | nil =>
      simp [startsWithL, ha.1]
    | cons d u =>
      simp only [List.mem_cons, not_or] at hb
      by_cases hdc : d = c
      · subst hdc
        have htu : t ≠ u := fun h => hne (by rw [h])
        simp [startsWithL, ih u s htu ha.2 hb.2]
      · simp [startsWithL, hdc]

/-- Character data of the tagged sentinel. -/
theorem commentTag_some_data (t : String) :
    (COMMENT_TAG (some t)).data =
      "<!-- ci/staging-comment-action".data ++
        '-' :: (t.data ++ [' ', '-', '-', '>']) := by
  show ("<!-- ci/staging-comment-action" ++ ("-" ++ t) ++ " -->").data = _
  rw [data_append, data_append, data_append]
  simp

/-- Character data of the tag-less sentinel. -/
theorem commentTag_none_data :
    (COMMENT_TAG none).data =
      "<!-- ci/staging-comment-action".data ++ [' ', '-', '-', '>'] := by
  show ("<!-- ci/staging-comment-action" ++ "" ++ " -->").data = _
  rw [data_append, data_append]
  simp

/-- Distinct space-free tags never cross-match, stated over an abstract
common sentinel prefix `P`. -/
theorem sentinel_some_no_cross (P a b s : List Char) (hne : a ≠ b)
    (ha : ' ' ∉ a) (hb : ' ' ∉ b) :
    startsWithL ((P ++ '-' :: (b ++ [' ', '-', '-', '>'])) ++ s)
      (P ++ '-' :: (a ++ [' ', '-', '-', '>'])) = false := by
  rw [List.append_assoc, List.cons_append, List.append_assoc,
    startsWithL_append_cancel]
  simp only [startsWithL, decide_True, Bool.true_and, List.cons_append,
    List.nil_append]
  exact tag_suffix_no_cross a b s hne ha hb

/-- A tagged sentinel body never matches the tag-less sentinel. -/
theorem sentinel_none_vs_some (P t s : List Char) :
    startsWithL ((P ++ '-' :: (t ++ [' ', '-', '-', '>'])) ++ s)
      (P ++ [' ', '-', '-', '>']) = false := by
  rw [List.append_assoc, List.cons_append, startsWithL_append_cancel]
  simp [startsWithL, show ('-' : Char) ≠ ' ' by decide]

/-- A tag-less sentinel body never matches any tagged sentinel. -/
theorem sentinel_some_vs_none (P t s : List Char) :
    startsWithL ((P ++ [' ', '-', '-', '>']) ++ s)
      (P ++ '-' :: (t ++ [' ', '-', '-', '>'])) = false := by
  rw [List.append_assoc, startsWithL_append_cancel]
  simp [startsWithL, show (' ' : Char) ≠ '-' by decide]

/-- Claim C7: sentinel scoping.  `isStagingComment` returns true iff the
trimmed body starts with the sentinel for exactly that tag; a body whose
trimmed text carries a distinct space-free tag's sentinel is rejected; and
the tag-less sentinel and any tagged sentinel never cross-match in either
direction. -/
theorem sentinel_scoping :
    (∀ body tag, isStagingComment body tag =
        startsWithL (jsTrim body).data (COMMENT_TAG tag).data) ∧
    (∀ A B rest body, A ≠ B → ' ' ∉ A.data → ' ' ∉ B.data →
        jsTrim body = COMMENT_TAG (some B) ++ rest →
        isStagingComment body (some A) = false) ∧
    (∀ t rest body, jsTrim body = COMMENT_TAG (some t) ++ rest →
        isStagingComment body none = false) ∧
    (∀ t rest body, jsTrim body = COMMENT_TAG none ++ rest →
        isStagingComment body (some t) = false) := by
  refine ⟨fun _ _ => rfl, ?_, ?_, ?_⟩
  · intro A B rest body hne hA hB htrim
    simp only [isStagingComment]
    rw [htrim, data_append, commentTag_some_data, commentTag_some_data]
    exact sentinel_some_no_cross _ _ _ _ (data_ne_of_ne hne) hA hB
  · intro t rest body htrim
    simp only [isStagingComment]
    rw [htrim, data_append, commentTag_some_data, commentTag_none_data]
    exact sentinel_none_vs_some _ _ _
  · intro t rest body htrim
    simp only [isStagingComment]
    rw [htrim, data_append, commentTag_none_data, commentTag_some_data]
    exact sentinel_some_vs_none _ _ _

theorem sentinel_scoping_witness :
    isStagingComment "<!-- ci/staging-comment-action-jobB -->\nledger" (some "jobA") = false ∧
    isStagingComment "<!-- ci/staging-comment-action-jobA -->\nledger" none = false ∧
    isStagingComment "<!-- ci/staging-comment-action -->\nledger" (some "jobA") = false ∧
    isStagingComment "<!-- ci/staging-comment-action-jobA -->\nledger" (some "jobA") = true := by
  refine ⟨?_, ?_, ?_, ?_⟩
  · exact sentinel_scoping.2.1 "jobA" "jobB" "\nledger" _
      (by decide) (by decide) (by decide) (by decide)
  · exact sentinel_scoping.2.2.1 "jobA" "\nledger" _ (by decide)
  · exact sentinel_scoping.2.2.2 "jobA" "\nledger" _ (by decide)
  · rw [sentinel_scoping.1]
    decide


/-- A selected line that fails to parse fails the whole collection. -/
theorem collectEntries_err_of_mem (l : List (List Char)) (line : List Char)
    (hmem : line ∈ l) (hsel : isEntryLine line = true)
    (herr : isErr (parseBuildEntry line) = true) :
    isErr (collectEntries l) = true := by
  induction l with
  | nil => cases hmem
  | cons a rest ih =>
    rcases List.mem_cons.mp hmem with h | h
    · subst h
      simp only [collectEntries, hsel, if_true]
      cases hpe : parseBuildEntry line with
      | error e => rfl
      | ok b => rw [hpe] at herr; simp [isErr] at herr
    · by_cases ha : isEntryLine a = true
      · simp only [collectEntries, ha, if_true]
        cases hpa : parseBuildEntry a with
        | error e => rfl
        | ok b =>
          cases hc : collectEntries rest with
          | error e => rfl
          | ok bs =>
            have hrec := ih h
            rw [hc] at hrec
            simp [isErr] at hrec
      · simp only [collectEntries, ha]
        simpa using ih h

/-- A row whose cell count differs from 7 fails to parse. -/
theorem parseBuildEntry_err_of_bad_cells (line : List Char)
    (h : (splitCells line).length ≠ 7) : isErr (parseBuildEntry line) = true := by
  simp only [parseBuildEntry]
  rcases hc : splitCells line with
    _ | ⟨c0, _ | ⟨c1, _ | ⟨c2, _ | ⟨c3, _ | ⟨c4, _ | ⟨c5, _ | ⟨c6, _ | ⟨c7, rest⟩⟩⟩⟩⟩⟩⟩⟩
  all_goals first
  | rfl
  | (rw [hc] at h; simp at h)

/-- When no line is selected, collection returns the empty list. -/
theorem collectEntries_ok_nil (l : List (List Char))
    (h : ∀ line ∈ l, isEntryLine line = false) :
    collectEntries l = .ok [] := by
  induction l with
  | nil => rfl
  | cons a rest ih =>
    have ha := h a (List.mem_cons_self a rest)
    simp only [collectEntries, ha, Bool.false_eq_true, if_false]
    exact ih (fun x hx => h x (List.mem_cons_of_mem a hx))

/-- Claim C6: decode rejects malformed and empty input.  A body with a
selected data row whose cell count is not 7 fails to decode, and a body
in which no line is selected as a data row fails to decode. -/
theorem decode_rejects_malformed_and_empty :
    (∀ body line, line ∈ ledgerLines body → isEntryLine line = true →
        (splitCells line).length ≠ 7 → isErr (getBuildState body) = true) ∧
    (∀ body, (∀ line ∈ ledgerLines body, isEntryLine line = false) →
        isErr (getBuildState body) = true) := by
  constructor
  · intro body line hmem hsel hcells
    have herr := collectEntries_err_of_mem _ line hmem hsel
      (parseBuildEntry_err_of_bad_cells line hcells)
    simp only [getBuildState]
    cases hc : collectEntries (ledgerLines body) with
    | error e => rfl
    | ok bs => rw [hc] at herr; simp [isErr] at herr
  · intro body h
    simp only [getBuildState]
    rw [collectEntries_ok_nil _ h]
    rfl

theorem decode_rejects_malformed_and_empty_witness :
    isErr (getBuildState "| a | b | c | d | e | f |") = true ∧
    isErr (getBuildState (HEADER_ROW ++ "\n" ++ SEPARATOR_ROW)) = true := by
  constructor
  · exact decode_rejects_malformed_and_empty.1 "| a | b | c | d | e | f |"
      "| a | b | c | d | e | f |".data (by decide) (by decide) (by decide)
  · exact decode_rejects_malformed_and_empty.2 _ (by decide)

/-- When every selected line parses, collection succeeds and returns one
entry per selected line. -/
theorem collectEntries_ok_of_all_ok (l : List (List Char))
    (h : ∀ line ∈ l, isEntryLine line = true → isErr (parseBuildEntry line) = false) :
    ∃ es, collectEntries l = .ok es ∧
      es.length = (l.filter (fun line => isEntryLine line)).length := by
  induction l with
  | nil => exact ⟨[], rfl, rfl⟩
  | cons a rest ih =>
    obtain ⟨es, hc, hlen⟩ :=
      ih (fun x hx hsel => h x (List.mem_cons_of_mem a hx) hsel)
    by_cases ha : isEntryLine a = true
    · cases hpa : parseBuildEntry a with
      | error e =>
        have := h a (List.mem_cons_self a rest) ha
        rw [hpa] at this
        simp [isErr] at this
      | ok b =>
        refine ⟨b :: es, ?_, ?_⟩
        · simp only [collectEntries, ha, if_true, hpa, hc]
        · simp [ha, hlen, List.filter_cons]
    · refine ⟨es, ?_, ?_⟩
      · simp only [collectEntries, ha, Bool.false_eq_true, if_false, hc]
      · simp [ha, hlen, List.filter_cons]

/-- Claim C10: decode does not check ownership.  `getBuildState` succeeds
on any body whose selected data rows all parse and number at least one —
no hypothesis about the sentinel appears, because the decoder never
inspects it; ownership is a caller concern (`isStagingComment`). -/
theorem decode_ignores_ownership (body : String)
    (hok : ∀ line ∈ ledgerLines body, isEntryLine line = true →
        isErr (parseBuildEntry line) = false)
    (hsome : ∃ line ∈ ledgerLines body, isEntryLine line = true) :
    isErr (getBuildState body) = false := by
  obtain ⟨es, hc, hlen⟩ := collectEntries_ok_of_all_ok _ hok
  cases es with
  | nil =>
    obtain ⟨line, hmem, hsel⟩ := hsome
    have hfil : line ∈ (ledgerLines body).filter (fun line => isEntryLine line) :=
      List.mem_filter.mpr ⟨hmem, hsel⟩
    have hpos := List.length_pos.mpr (List.ne_nil_of_mem hfil)
    rw [← hlen] at hpos
    simp at hpos
  | cons e es' =>
    simp only [getBuildState]
    rw [hc]
    rfl

/-- Two helper facts for the C10 witness: a body whose trimmed text does
not start with the fixed sentinel prefix matches no tag's sentinel. -/
theorem startsWithL_of_append (s p q : List Char) :
    startsWithL s (p ++ q) = true → startsWithL s p = true := by
  induction p generalizing s with
  | nil => intro _; cases s <;> rfl
  | cons c cs ih =>
    cases s with
    | nil => intro h; exact h
    | cons d ds =>
      simp only [List.cons_append, startsWithL, Bool.and_eq_true]
      rintro ⟨h1, h2⟩
      exact ⟨h1, ih ds h2⟩

theorem startsWithL_append_false (s p q : List Char)
    (h : startsWithL s p = false) : startsWithL s (p ++ q) = false := by
  cases h2 : startsWithL s (p ++ q)
  · rfl
  · rw [startsWithL_of_append s p q h2] at h; cases h

/-- Every sentinel starts with the fixed prefix. -/
theorem commentTag_data_decomp (t : Option String) :
    (COMMENT_TAG t).data = "<!-- ci/staging-comment-action".data ++
      ((match t with | some u => "-" ++ u | none => "").data ++ " -->".data) := by
  show (("<!-- ci/staging-comment-action" ++ _) ++ " -->").data = _
  rw [data_append, data_append, List.append_assoc]

/-- A body not starting with the fixed sentinel prefix carries no tag's
sentinel at all. -/
theorem no_sentinel_of_other_head (body : String)
    (h : startsWithL (jsTrim body).data "<!-- ci/staging-comment-action".data = false) :
    ∀ t, isStagingComment body t = false := by
  intro t
  simp only [isStagingComment]
  rw [commentTag_data_decomp t]
  exact startsWithL_append_false _ _ _ h

theorem decode_ignores_ownership_witness :
    (∀ t, isStagingComment
        "Some unrelated comment\n| 🟡 | s | ~ | [`a`](c) | t | ~ | [link](r) |" t = false) ∧
    isErr (getBuildState
        "Some unrelated comment\n| 🟡 | s | ~ | [`a`](c) | t | ~ | [link](r) |") = false :=
  ⟨no_sentinel_of_other_head _ (by decide),
   decode_ignores_ownership _ (by decide) (by decide)⟩


/-- `dropWhile` is the identity when the head does not satisfy the
predicate. -/
theorem dropWhile_eq_self_of_head (p : Char → Bool) (l : List Char)
    (h : ∀ c, l.head? = some c → p c = false) : l.dropWhile p = l := by
  cases l with
  | nil => rfl
  | cons c t => rw [List.dropWhile_cons, h c rfl]; simp

/-- Trailing-whitespace removal is the identity when the last character
is not whitespace. -/
theorem dropTrailingWs_eq_self (l : List Char)
    (h : ∀ c, l.getLast? = some c → jsWs c = false) : dropTrailingWs l = l := by
  rw [dropTrailingWs, dropWhile_eq_self_of_head jsWs l.reverse
    (fun c hc => h c (by rwa [List.head?_reverse] at hc)), List.reverse_reverse]

/-- Trimming is the identity when both ends are not whitespace. -/
theorem trimChars_eq_self (l : List Char)
    (hh : ∀ c, l.head? = some c → jsWs c = false)
    (hl : ∀ c, l.getLast? = some c → jsWs c = false) : trimChars l = l := by
  rw [trimChars, dropTrailingWs_eq_self l hl, dropLeadingWs,
    dropWhile_eq_self_of_head jsWs l hh]

/-- A trailing whitespace character is removed by `dropTrailingWs`. -/
theorem dropTrailingWs_concat_ws (l : List Char) (c : Char) (h : jsWs c = true) :
    dropTrailingWs (l ++ [c]) = dropTrailingWs l := by
  rw [dropTrailingWs, dropTrailingWs, List.reverse_append]
  simp [List.dropWhile_cons, h]

/-- A trailing whitespace character is removed by `trimChars`. -/
theorem trimChars_concat_ws (l : List Char) (c : Char) (h : jsWs c = true) :
    trimChars (l ++ [c]) = trimChars l := by
  rw [trimChars, trimChars, dropTrailingWs_concat_ws l c h]

/-- A leading whitespace character is removed by `trimChars`. -/
theorem trimChars_cons_ws (c : Char) (l : List Char) (h : jsWs c = true) :
    trimChars (c :: l) = trimChars l := by
  rw [trimChars, trimChars, dropTrailingWs, dropTrailingWs]
  have hrev : (c :: l).reverse = l.reverse ++ [c] := by simp
  rw [hrev, List.dropWhile_append]
  cases hdw : l.reverse.dropWhile jsWs with
  | nil =>
    simp [dropLeadingWs, List.dropWhile_cons, h]
  | cons d ds =>
    simp only [List.isEmpty_cons, Bool.false_eq_true, if_false]
    have hq : d :: ds ++ [c] = (d :: ds) ++ [c] := rfl
    rw [hq, List.reverse_append]
    simp only [List.reverse_cons, List.reverse_nil, List.nil_append,
      List.singleton_append]
    rw [dropLeadingWs, dropLeadingWs, List.dropWhile_cons]
    simp [h]

/-- Padding a cell with one space on each side does not change its
trimmed value. -/
theorem trimChars_pad (c : List Char) :
    trimChars (' ' :: (c ++ [' '])) = trimChars c := by
  rw [trimChars_cons_ws _ _ (by decide), trimChars_concat_ws _ _ (by decide)]

/-- `splitOnChar` never returns the empty list of groups. -/
theorem splitOnChar_ne_nil (ch : Char) (l : List Char) :
    splitOnChar ch l ≠ [] := by
  cases l with
  | nil => simp [splitOnChar]
  | cons c rest =>
    by_cases h : c = ch
    · simp [splitOnChar, h]
    · simp only [splitOnChar, h, if_false]
      cases hs : splitOnChar ch rest <;> simp

/-- Splitting a separator-free list yields one group. -/
theorem splitOnChar_no (ch : Char) (l : List Char) (h : ch ∉ l) :
    splitOnChar ch l = [l] := by
  induction l with
  | nil => rfl
  | cons c rest ih =>
    simp only [List.mem_cons, not_or] at h
    simp only [splitOnChar, Ne.symm h.1, if_false]
    rw [ih h.2]

/-- Splitting peels off a separator-free group before a separator. -/
theorem splitOnChar_append (ch : Char) (a b : List Char) (h : ch ∉ a) :
    splitOnChar ch (a ++ ch :: b) = a :: splitOnChar ch b := by
  induction a with
  | nil => simp [splitOnChar]
  | cons c rest ih =>
    simp only [List.mem_cons, not_or] at h
    simp only [List.cons_append, splitOnChar, Ne.symm h.1, if_false, List.append_eq]
    rw [ih h.2]


/-- The character shape of a rendered table row with the given cell
contents: `| c0 | c1 | ... | c6 |`. -/
def rowData (cs : List (List Char)) : List Char :=
  '|' :: cs.foldr (fun c acc => ' ' :: (c ++ ' ' :: '|' :: acc)) []

/-- The row body of a non-empty cell list ends in the table delimiter. -/
theorem rowFold_concat (cs : List (List Char)) (h : cs ≠ []) :
    ∃ x, cs.foldr (fun c acc => ' ' :: (c ++ ' ' :: '|' :: acc)) [] = x ++ ['|'] := by
  induction cs with
  | nil => exact absurd rfl h
  | cons c rest ih =>
    cases rest with
    | nil =>
      refine ⟨' ' :: (c ++ [' ']), ?_⟩
      simp [List.foldr]
    | cons c2 rest2 =>
      obtain ⟨x, hx⟩ := ih (by simp)
      refine ⟨' ' :: (c ++ ' ' :: '|' :: x), ?_⟩
      simp only [List.foldr] at hx ⊢
      rw [hx]
      simp

/-- Characters of a row body come from the delimiters, the padding or the
cells. -/
theorem rowFold_mem (cs : List (List Char)) (x : Char)
    (hx : x ∈ cs.foldr (fun c acc => ' ' :: (c ++ ' ' :: '|' :: acc)) []) :
    x = ' ' ∨ x = '|' ∨ ∃ c ∈ cs, x ∈ c := by
  induction cs with
  | nil => cases hx
  | cons c rest ih =>
    simp only [List.foldr] at hx
    rcases List.mem_cons.mp hx with h | h
    · exact Or.inl h
    · rcases List.mem_append.mp h with h | h
      · exact Or.inr (Or.inr ⟨c, List.mem_cons_self c rest, h⟩)
      · rcases List.mem_cons.mp h with h | h
        · exact Or.inl h
        · rcases List.mem_cons.mp h with h | h
          · exact Or.inr (Or.inl h)
          · rcases ih h with h | h | ⟨d, hd, hxd⟩
            · exact Or.inl h
            · exact Or.inr (Or.inl h)
            · exact Or.inr (Or.inr ⟨d, List.mem_cons_of_mem c hd, hxd⟩)

/-- Characters of a row come from the delimiters, the padding or the
cells. -/
theorem rowData_mem (cs : List (List Char)) (x : Char) (hx : x ∈ rowData cs) :
    x = ' ' ∨ x = '|' ∨ ∃ c ∈ cs, x ∈ c := by
  rcases List.mem_cons.mp hx with h | h
  · exact Or.inr (Or.inl h)
  · exact rowFold_mem cs x h

/-- Splitting a row body at the delimiters recovers the padded cells. -/
theorem splitOnChar_rowFold (cs : List (List Char))
    (h : ∀ c ∈ cs, '|' ∉ c) :
    splitOnChar '|' (cs.foldr (fun c acc => ' ' :: (c ++ ' ' :: '|' :: acc)) []) =
      cs.map (fun c => ' ' :: (c ++ [' '])) ++ [[]] := by
  induction cs with
  | nil => rfl
  | cons c rest ih =>
    simp only [List.foldr, List.map_cons]
    have hc := h c (List.mem_cons_self c rest)
    have hkey : ' ' :: (c ++ ' ' :: '|' ::
        rest.foldr (fun c acc => ' ' :: (c ++ ' ' :: '|' :: acc)) []) =
        (' ' :: (c ++ [' '])) ++ '|' ::
          rest.foldr (fun c acc => ' ' :: (c ++ ' ' :: '|' :: acc)) [] := by
      simp
    rw [hkey, splitOnChar_append '|' _ _ (by
      simp only [List.mem_cons, List.mem_append, not_or]
      exact ⟨by decide, hc, by simp⟩)]
    rw [ih (fun d hd => h d (List.mem_cons_of_mem c hd))]
    simp

/-- The trimmed row equals itself: it starts and ends with `|`. -/
theorem trimChars_rowData (cs : List (List Char)) (h : cs ≠ []) :
    trimChars (rowData cs) = rowData cs := by
  obtain ⟨x, hx⟩ := rowFold_concat cs h
  refine trimChars_eq_self _ (fun c hc => ?_) (fun c hc => ?_)
  · simp only [rowData] at hc
    cases hc
    decide
  · simp only [rowData, hx] at hc
    have : ('|' :: (x ++ ['|'])).getLast? = some '|' := by
      have h2 : '|' :: (x ++ ['|']) = ('|' :: x) ++ ['|'] := by simp
      rw [h2, List.getLast?_concat]
    rw [this] at hc
    cases hc
    decide

/-- The full cell pipeline on a rendered row returns the trimmed cells. -/
theorem splitCells_rowData (cs : List (List Char)) (hne : cs ≠ [])
    (hpipe : ∀ c ∈ cs, '|' ∉ c) (hnonempty : ∀ c ∈ cs, trimChars c ≠ []) :
    splitCells (rowData cs) = cs.map trimChars := by
  rw [splitCells, trimChars_rowData cs hne]
  have hsplit : splitOnChar '|' (rowData cs) =
      [] :: (cs.map (fun c => ' ' :: (c ++ [' '])) ++ [[]]) := by
    simp only [rowData, splitOnChar, if_pos rfl]
    exact congrArg _ (splitOnChar_rowFold cs hpipe)
  rw [hsplit]
  simp only [List.map_cons, List.map_append, List.map_map, List.map_nil]
  have ht : trimChars [] = ([] : List Char) := rfl
  rw [ht]
  have hmap : cs.map (trimChars ∘ fun c => ' ' :: (c ++ [' '])) = cs.map trimChars :=
    List.map_congr_left (fun c _ => trimChars_pad c)
  rw [hmap]
  have hfil : List.filter (fun c => decide (c ≠ [])) (List.map trimChars cs) =
      List.map trimChars cs :=
    List.filter_eq_self.mpr (fun a ha => by
      obtain ⟨c, hc, hca⟩ := List.mem_map.mp ha
      simp only [decide_eq_true_eq]
      rw [← hca]
      exact hnonempty c hc)
  rw [List.filter_cons_of_neg (by decide), List.filter_append, hfil,
    List.filter_cons_of_neg (by decide), List.filter_nil, List.append_nil]


/-- The commit cell rendered by `entry`: the short sha in backticks
linked to the commit. -/
def commitCell (sha cl : List Char) : List Char :=
  '[' :: ((((backtick :: sha) ++ [backtick]) ++ (']' :: '(' :: cl)) ++ [')'])

/-- The run cell rendered by `entry`: the text `link` linked to the run. -/
def runCell (rl : List Char) : List Char :=
  '[' :: ((['l', 'i', 'n', 'k'] ++ (']' :: '(' :: rl)) ++ [')'])

/-- No `](` split exists in a `]`-free list. -/
theorem lastLinkSplit_none (l : List Char) (h : ']' ∉ l) :
    lastLinkSplit l = none := by
  induction l with
  | nil => rfl
  | cons c rest ih =>
    simp only [List.mem_cons, not_or] at h
    simp only [lastLinkSplit, ih h.2, Ne.symm h.1, if_false]

/-- The greedy group split lands on the marked boundary when the tail is
`]`-free. -/
theorem lastLinkSplit_boundary (a b : List Char) (hb : ']' ∉ b) :
    lastLinkSplit (a ++ (']' :: '(' :: b)) = some (a, b) := by
  induction a with
  | nil =>
    simp [lastLinkSplit, lastLinkSplit_none b hb]
  | cons c a' ih =>
    simp only [List.cons_append, lastLinkSplit, List.append_eq, ih]

/-- Characters of an inline-link cell. -/
theorem linkShape_mem (a b : List Char) (x : Char)
    (hx : x ∈ '[' :: ((a ++ (']' :: '(' :: b)) ++ [')'])) :
    x = '[' ∨ x = ']' ∨ x = '(' ∨ x = ')' ∨ x ∈ a ∨ x ∈ b := by
  simp only [List.mem_cons, List.mem_append] at hx
  tauto

/-- `parseLink` succeeds on a well-shaped inline link whose url part is
`]`-free and which carries no line terminator. -/
theorem parseLink_shape (a b : List Char) (hb : ']' ∉ b)
    (hna : '\n' ∉ a) (hra : '\r' ∉ a) (hnb : '\n' ∉ b) (hrb : '\r' ∉ b) :
    parseLink ('[' :: ((a ++ (']' :: '(' :: b)) ++ [')'])) = .ok (a, b) := by
  simp only [parseLink]
  rw [if_neg (by
    rintro (h | h)
    · rcases linkShape_mem a b _ h with h | h | h | h | h | h
      · exact absurd h (by decide)
      · exact absurd h (by decide)
      · exact absurd h (by decide)
      · exact absurd h (by decide)
      · exact hna h
      · exact hnb h
    · rcases linkShape_mem a b _ h with h | h | h | h | h | h
      · exact absurd h (by decide)
      · exact absurd h (by decide)
      · exact absurd h (by decide)
      · exact absurd h (by decide)
      · exact hra h
      · exact hrb h)]
  rw [if_pos ⟨trivial, List.getLast?_concat _⟩, List.dropLast_concat,
    lastLinkSplit_boundary a b hb]


/-- A field that can sit in a table cell: free of the delimiter and of
line terminators. -/
@[reducible] def cleanField (s : String) : Prop :=
  '|' ∉ s.data ∧ '\n' ∉ s.data ∧ '\r' ∉ s.data

/-- `String.mk` of a string's data is the string. -/
theorem mk_data (s : String) : String.mk s.data = s := by cases s; rfl

/-- The deploy-url cell rendered by `entry`: a `link`-labelled inline
link when the url is present, the placeholder token when absent. -/
def deployCell (e : BuildEntry) : List Char :=
  match e.deployUrl with
  | some u => runCell u.data
  | none => ['~']

/-- The duration cell rendered by `entry`: the duration text when
present, the placeholder token when absent. -/
def durationCell (e : BuildEntry) : List Char :=
  match e.buildDuration with
  | none => ['~']
  | some d => d.data

/-- The duration `parseBuildEntry` reads back from a rendered row: an
absent duration stays absent; a present one comes back trimmed, unless
its trimmed text is exactly the placeholder token. -/
def decodedDuration (e : BuildEntry) : Option String :=
  match e.buildDuration with
  | none => none
  | some d => if trimChars d.data = ['~'] then none else some ⟨trimChars d.data⟩

/-- The seven cells rendered by `entry`. -/
def entryCells (e : BuildEntry) : List (List Char) :=
  [e.emoji.data, e.status.data, deployCell e,
   commitCell e.commitSha.data e.commitLink.data,
   e.buildTime.data, durationCell e, runCell e.runLink.data]

set_option maxHeartbeats 1000000 in
/-- The rendered row of an entry is the row of its seven cells. -/
theorem entry_data (e : BuildEntry) :
    (entry e).data = trimChars (rowData (entryCells e) ++ ['\n']) := by
  cases hdep : e.deployUrl <;> cases hdur : e.buildDuration <;>
    (simp only [entry, hdep, hdur, jsTrim]
     rw [mkStr_data]
     congr 1
     simp only [link, NULL, data_append, rowData, entryCells, deployCell,
       durationCell, hdep, hdur, commitCell, runCell,
       backtick, List.foldr_cons, List.foldr_nil,
       show "| ".data = ['|', ' '] from rfl,
       show " | ".data = [' ', '|', ' '] from rfl,
       show " |\n".data = [' ', '|', '\n'] from rfl,
       show "~".data = ['~'] from rfl,
       show "[".data = ['['] from rfl,
       show "](".data = [']', '('] from rfl,
       show ")".data = [')'] from rfl,
       show ("`" : String).data = [backtick] from rfl,
       show "link".data = ['l', 'i', 'n', 'k'] from rfl,
       List.append_assoc, List.cons_append, List.nil_append, List.append_nil])


/-- Removing the first occurrence from a list that starts with it. -/
theorem removeFirstChar_head (x : Char) (l : List Char) :
    removeFirstChar x (x :: l) = l := by
  simp [removeFirstChar]

/-- `parseBuildEntry` on a line whose cell pipeline yields the seven
cells rendered for an entry with absent optionals: the glyph and status
tokens are carried through unchecked, the placeholders decode to absent
values, and only the first backtick of the commit display text is
removed. -/
theorem parseBuildEntry_of_cells (line t0 t1 t4 t5 sha cl rl : List Char)
    (hsplit : splitCells line =
      [t0, t1, ['~'], commitCell sha cl, t4, t5, runCell rl])
    (hclj : ']' ∉ cl) (hrlj : ']' ∉ rl)
    (hshan : '\n' ∉ sha) (hshar : '\r' ∉ sha)
    (hcln : '\n' ∉ cl) (hclr : '\r' ∉ cl)
    (hrln : '\n' ∉ rl) (hrlr : '\r' ∉ rl) :
    parseBuildEntry line = .ok {
      emoji := ⟨t0⟩, status := ⟨t1⟩, deployUrl := none,
      commitSha := ⟨sha ++ [backtick]⟩, commitLink := ⟨cl⟩,
      buildTime := ⟨t4⟩,
      buildDuration := if t5 = ['~'] then none else some ⟨t5⟩,
      runLink := ⟨rl⟩ } := by
  have hmem1 : '\n' ∉ (backtick :: sha) ++ [backtick] := by
    intro h
    rcases List.mem_cons.mp h with h | h
    · exact absurd h (by decide)
    · rcases List.mem_append.mp h with h | h
      · exact hshan h
      · simp at h
        exact absurd h (by decide)
  have hmem2 : '\r' ∉ (backtick :: sha) ++ [backtick] := by
    intro h
    rcases List.mem_cons.mp h with h | h
    · exact absurd h (by decide)
    · rcases List.mem_append.mp h with h | h
      · exact hshar h
      · simp at h
        exact absurd h (by decide)
  have hlink1 : parseLink (commitCell sha cl) =
      .ok ((backtick :: sha) ++ [backtick], cl) :=
    parseLink_shape _ _ hclj hmem1 hmem2 hcln hclr
  have hlink2 : parseLink (runCell rl) = .ok (['l', 'i', 'n', 'k'], rl) :=
    parseLink_shape _ _ hrlj (by decide) (by decide) hrln hrlr
  simp only [parseBuildEntry]
  rw [hsplit]
  simp [hlink1, hlink2, NULLC, removeFirstChar]

/-- As `parseBuildEntry_of_cells`, for a row whose deploy cell carries a
rendered link: the url decodes back verbatim. -/
theorem parseBuildEntry_of_cells_dep (line t0 t1 t4 t5 sha cl rl u : List Char)
    (hsplit : splitCells line =
      [t0, t1, runCell u, commitCell sha cl, t4, t5, runCell rl])
    (huj : ']' ∉ u) (hun : '\n' ∉ u) (hur : '\r' ∉ u)
    (hclj : ']' ∉ cl) (hrlj : ']' ∉ rl)
    (hshan : '\n' ∉ sha) (hshar : '\r' ∉ sha)
    (hcln : '\n' ∉ cl) (hclr : '\r' ∉ cl)
    (hrln : '\n' ∉ rl) (hrlr : '\r' ∉ rl) :
    parseBuildEntry line = .ok {
      emoji := ⟨t0⟩, status := ⟨t1⟩, deployUrl := some ⟨u⟩,
      commitSha := ⟨sha ++ [backtick]⟩, commitLink := ⟨cl⟩,
      buildTime := ⟨t4⟩,
      buildDuration := if t5 = ['~'] then none else some ⟨t5⟩,
      runLink := ⟨rl⟩ } := by
  have hmem1 : '\n' ∉ (backtick :: sha) ++ [backtick] := by
    intro h
    rcases List.mem_cons.mp h with h | h
    · exact absurd h (by decide)
    · rcases List.mem_append.mp h with h | h
      · exact hshan h
      · simp at h
        exact absurd h (by decide)
  have hmem2 : '\r' ∉ (backtick :: sha) ++ [backtick] := by
    intro h
    rcases List.mem_cons.mp h with h | h
    · exact absurd h (by decide)
    · rcases List.mem_append.mp h with h | h
      · exact hshar h
      · simp at h
        exact absurd h (by decide)
  have hlink1 : parseLink (commitCell sha cl) =
      .ok ((backtick :: sha) ++ [backtick], cl) :=
    parseLink_shape _ _ hclj hmem1 hmem2 hcln hclr
  have hlink2 : parseLink (runCell rl) = .ok (['l', 'i', 'n', 'k'], rl) :=
    parseLink_shape _ _ hrlj (by decide) (by decide) hrln hrlr
  have hlink3 : parseLink (runCell u) = .ok (['l', 'i', 'n', 'k'], u) :=
    parseLink_shape _ _ huj (by decide) (by decide) hun hur
  have hne0 : runCell u ≠ ['~'] := by simp [runCell]
  simp only [parseBuildEntry]
  rw [hsplit]
  simp [hlink1, hlink2, hlink3, hne0, NULLC, removeFirstChar]

/-- Trimming an inline-link cell is the identity: it starts with `[` and
ends with `)`. -/
theorem trimChars_linkCell (w : List Char) :
    trimChars ('[' :: (w ++ [')'])) = '[' :: (w ++ [')']) := by
  apply trimChars_eq_self
  · intro c hc
    cases hc
    decide
  · intro c hc
    have h2 : ('[' :: (w ++ [')'])) = ('[' :: w) ++ [')'] := by simp
    rw [h2, List.getLast?_concat] at hc
    cases hc
    decide

/-- Characters of a commit cell. -/
theorem commitCell_mem (sha cl : List Char) (x : Char)
    (hx : x ∈ commitCell sha cl) :
    x = '[' ∨ x = ']' ∨ x = '(' ∨ x = ')' ∨ x = backtick ∨ x ∈ sha ∨ x ∈ cl := by
  rcases linkShape_mem _ _ _ hx with h | h | h | h | h | h
  · exact Or.inl h
  · exact Or.inr (Or.inl h)
  · exact Or.inr (Or.inr (Or.inl h))
  · exact Or.inr (Or.inr (Or.inr (Or.inl h)))
  · rcases List.mem_cons.mp h with h | h
    · exact Or.inr (Or.inr (Or.inr (Or.inr (Or.inl h))))
    · rcases List.mem_append.mp h with h | h
      · exact Or.inr (Or.inr (Or.inr (Or.inr (Or.inr (Or.inl h)))))
      · simp at h
        exact Or.inr (Or.inr (Or.inr (Or.inr (Or.inl h))))
  · exact Or.inr (Or.inr (Or.inr (Or.inr (Or.inr (Or.inr h)))))

/-- Characters of a run cell. -/
theorem runCell_mem (rl : List Char) (x : Char) (hx : x ∈ runCell rl) :
    x = '[' ∨ x = ']' ∨ x = '(' ∨ x = ')' ∨
      x = 'l' ∨ x = 'i' ∨ x = 'n' ∨ x = 'k' ∨ x ∈ rl := by
  rcases linkShape_mem _ _ _ hx with h | h | h | h | h | h
  · exact Or.inl h
  · exact Or.inr (Or.inl h)
  · exact Or.inr (Or.inr (Or.inl h))
  · exact Or.inr (Or.inr (Or.inr (Or.inl h)))
  · rcases List.mem_cons.mp h with h | h
    · exact Or.inr (Or.inr (Or.inr (Or.inr (Or.inl h))))
    · rcases List.mem_cons.mp h with h | h
      · exact Or.inr (Or.inr (Or.inr (Or.inr (Or.inr (Or.inl h)))))
      · rcases List.mem_cons.mp h with h | h
        · exact Or.inr (Or.inr (Or.inr (Or.inr (Or.inr (Or.inr (Or.inl h))))))
        · rcases List.mem_cons.mp h with h | h
          · exact Or.inr (Or.inr (Or.inr (Or.inr (Or.inr (Or.inr (Or.inr (Or.inl h)))))))
          · cases h
  · exact Or.inr (Or.inr (Or.inr (Or.inr (Or.inr (Or.inr (Or.inr (Or.inr h)))))))

/-- No cell of a clean entry contains `x`, for `x` outside the fixed
rendering characters and outside every field. -/
theorem entryCells_char_free (e : BuildEntry) (x : Char)
    (hx1 : x ≠ '[') (hx2 : x ≠ ']') (hx3 : x ≠ '(') (hx4 : x ≠ ')')
    (hx5 : x ≠ backtick) (hx6 : x ≠ '~') (hx7 : x ≠ 'l') (hx8 : x ≠ 'i')
    (hx9 : x ≠ 'n') (hx10 : x ≠ 'k')
    (he : x ∉ e.emoji.data) (hs : x ∉ e.status.data) (hsh : x ∉ e.commitSha.data)
    (hc : x ∉ e.commitLink.data) (hb : x ∉ e.buildTime.data) (hr : x ∉ e.runLink.data)
    (hdep : ∀ u, e.deployUrl = some u → x ∉ u.data)
    (hdur : ∀ d, e.buildDuration = some d → x ∉ d.data) :
    ∀ c ∈ entryCells e, x ∉ c := by
  intro c hcm
  simp only [entryCells, List.mem_cons, List.not_mem_nil, or_false] at hcm
  rcases hcm with rfl | rfl | rfl | rfl | rfl | rfl | rfl
  · exact he
  · exact hs
  · cases hu : e.deployUrl with
    | none => simp [deployCell, hu, hx6]
    | some u =>
      intro hmem
      simp only [deployCell, hu] at hmem
      rcases runCell_mem _ _ hmem with h | h | h | h | h | h | h | h | h
      · exact hx1 h
      · exact hx2 h
      · exact hx3 h
      · exact hx4 h
      · exact hx7 h
      · exact hx8 h
      · exact hx9 h
      · exact hx10 h
      · exact hdep u hu h
  · intro hmem
    rcases commitCell_mem _ _ _ hmem with h | h | h | h | h | h | h
    · exact hx1 h
    · exact hx2 h
    · exact hx3 h
    · exact hx4 h
    · exact hx5 h
    · exact hsh h
    · exact hc h
  · exact hb
  · cases hd : e.buildDuration with
    | none => simp [durationCell, hd, hx6]
    | some d =>
      intro hmem
      simp only [durationCell, hd] at hmem
      exact hdur d hd hmem
  · intro hmem
    rcases runCell_mem _ _ hmem with h | h | h | h | h | h | h | h | h
    · exact hx1 h
    · exact hx2 h
    · exact hx3 h
    · exact hx4 h
    · exact hx7 h
    · exact hx8 h
    · exact hx9 h
    · exact hx10 h
    · exact hr h


/-- The rendered row of an entry, as a `rowData`. -/
theorem entry_data_row (e : BuildEntry) :
    (entry e).data = rowData (entryCells e) := by
  rw [entry_data e, trimChars_concat_ws _ '\n' (by decide),
    trimChars_rowData _ (by simp [entryCells])]

/-- The regex accepts every rendered row that carries no line
terminator. -/
theorem matchesRegex_rowData (cs : List (List Char)) (hne : cs ≠ [])
    (hnr : '\r' ∉ rowData cs) (hnn : '\n' ∉ rowData cs) :
    matchesBuildEntryRegex (rowData cs) = true := by
  obtain ⟨x, hx⟩ := rowFold_concat cs hne
  have hshape : rowData cs = '|' :: (x ++ ['|']) := by rw [rowData, hx]
  have htrim : dropTrailingWs (rowData cs) = rowData cs := by
    apply dropTrailingWs_eq_self
    intro c hc
    rw [hshape, show '|' :: (x ++ ['|']) = ('|' :: x) ++ ['|'] by simp,
      List.getLast?_concat] at hc
    cases hc
    decide
  rw [matchesBuildEntryRegex.eq_def, htrim, hshape]
  simp only [List.getLast?_concat, List.dropLast_concat]
  have hxr : '\r' ∉ x := fun hmem => hnr (by
    rw [hshape]
    exact List.mem_cons_of_mem _ (List.mem_append_left _ hmem))
  have hxn : '\n' ∉ x := fun hmem => hnn (by
    rw [hshape]
    exact List.mem_cons_of_mem _ (List.mem_append_left _ hmem))
  simp [hxr, hxn]

/-- A rendered row whose first cell starts with a non-delimiter character
does not start with the header row. -/
theorem rowData_not_header (c0 : List Char) (cs : List (List Char))
    (d : Char) (t : List Char) (hc0 : c0 = d :: t) (hd : d ≠ '|') :
    startsWithL (rowData (c0 :: cs)) HEADER_ROW.data = false := by
  have hH : HEADER_ROW.data =
      '|' :: ' ' :: '|' :: " Status | Url | Commit | Started at | Duration | Job |".data := rfl
  rw [hH, hc0]
  simp [rowData, startsWithL, hd]

/-- A rendered row does not start with the separator row. -/
theorem rowData_not_separator (c0 : List Char) (cs : List (List Char)) :
    startsWithL (rowData (c0 :: cs)) SEPARATOR_ROW.data = false := by
  have hS : SEPARATOR_ROW.data = '|' :: '-' :: "|-|-|-|-|-|-|".data := rfl
  rw [hS]
  simp [rowData, startsWithL, show (' ' : Char) ≠ '-' by decide]

/-- A rendered row ends in the delimiter, not a carriage return. -/
theorem dropTrailingCR_rowData (cs : List (List Char)) (hne : cs ≠ []) :
    dropTrailingCR (rowData cs) = rowData cs := by
  obtain ⟨x, hx⟩ := rowFold_concat cs hne
  have hlast : (rowData cs).getLast? = some '|' := by
    rw [rowData, hx, show '|' :: (x ++ ['|']) = ('|' :: x) ++ ['|'] by simp,
      List.getLast?_concat]
  rw [dropTrailingCR, hlast]
  simp

/-- A newline-free body is a single ledger line. -/
theorem ledgerLines_single (body : String) (h : '\n' ∉ body.data)
    (hcr : dropTrailingCR body.data = body.data) :
    ledgerLines body = [body.data] := by
  rw [ledgerLines, splitOnChar_no '\n' _ h]
  simp [hcr]


set_option maxHeartbeats 1000000 in
/-- Decoding the rendered row of a clean entry: the row decodes
successfully; the glyph, status and start-time cells come back trimmed,
a present deploy url survives and an absent one stays absent, the
duration decodes through `decodedDuration`, the links survive — and the
commit sha gains a trailing backtick, because `parseBuildEntry` removes
only the first backtick of the display text. -/
theorem getBuildState_entry (e : BuildEntry)
    (hem : cleanField e.emoji) (hst : cleanField e.status)
    (hsha : cleanField e.commitSha) (hcl : cleanField e.commitLink)
    (hbt : cleanField e.buildTime) (hrl : cleanField e.runLink)
    (hemne : trimChars e.emoji.data ≠ []) (hstne : trimChars e.status.data ≠ [])
    (hbtne : trimChars e.buildTime.data ≠ [])
    (hclj : ']' ∉ e.commitLink.data) (hrlj : ']' ∉ e.runLink.data)
    (hdepwf : ∀ u, e.deployUrl = some u → cleanField u ∧ ']' ∉ u.data)
    (hdurwf : ∀ d, e.buildDuration = some d → cleanField d ∧ trimChars d.data ≠ []) :
    getBuildState (entry e) = .ok {
      latest := { emoji := ⟨trimChars e.emoji.data⟩,
                  status := ⟨trimChars e.status.data⟩,
                  deployUrl := e.deployUrl,
                  commitSha := ⟨e.commitSha.data ++ [backtick]⟩,
                  commitLink := e.commitLink,
                  buildTime := ⟨trimChars e.buildTime.data⟩,
                  buildDuration := decodedDuration e,
                  runLink := e.runLink },
      previous := [] } := by
  have hrow : (entry e).data = rowData (entryCells e) := entry_data_row e
  have hnonnil : entryCells e ≠ [] := by simp [entryCells]
  have hpipe : ∀ c ∈ entryCells e, '|' ∉ c :=
    entryCells_char_free e '|' (by decide) (by decide) (by decide) (by decide)
      (by decide) (by decide) (by decide) (by decide) (by decide) (by decide)
      hem.1 hst.1 hsha.1 hcl.1 hbt.1 hrl.1
      (fun u hu => (hdepwf u hu).1.1) (fun d hd => (hdurwf d hd).1.1)
  have hnnfree : ∀ c ∈ entryCells e, '\n' ∉ c :=
    entryCells_char_free e '\n' (by decide) (by decide) (by decide) (by decide)
      (by decide) (by decide) (by decide) (by decide) (by decide) (by decide)
      hem.2.1 hst.2.1 hsha.2.1 hcl.2.1 hbt.2.1 hrl.2.1
      (fun u hu => (hdepwf u hu).1.2.1) (fun d hd => (hdurwf d hd).1.2.1)
  have hnrfree : ∀ c ∈ entryCells e, '\r' ∉ c :=
    entryCells_char_free e '\r' (by decide) (by decide) (by decide) (by decide)
      (by decide) (by decide) (by decide) (by decide) (by decide) (by decide)
      hem.2.2 hst.2.2 hsha.2.2 hcl.2.2 hbt.2.2 hrl.2.2
      (fun u hu => (hdepwf u hu).1.2.2) (fun d hd => (hdurwf d hd).1.2.2)
  have hnn : '\n' ∉ rowData (entryCells e) := by
    intro hmem
    rcases rowData_mem _ _ hmem with h | h | ⟨c, hc, hcc⟩
    · exact absurd h (by decide)
    · exact absurd h (by decide)
    · exact hnnfree c hc hcc
  have hnr : '\r' ∉ rowData (entryCells e) := by
    intro hmem
    rcases rowData_mem _ _ hmem with h | h | ⟨c, hc, hcc⟩
    · exact absurd h (by decide)
    · exact absurd h (by decide)
    · exact hnrfree c hc hcc
  have hc1 : trimChars (commitCell e.commitSha.data e.commitLink.data) =
      commitCell e.commitSha.data e.commitLink.data := trimChars_linkCell _
  have hc2 : trimChars (runCell e.runLink.data) = runCell e.runLink.data :=
    trimChars_linkCell _
  have hc3 : trimChars (deployCell e) = deployCell e := by
    cases hu : e.deployUrl with
    | none => simp only [deployCell, hu]; decide
    | some u => simp only [deployCell, hu]; exact trimChars_linkCell _
  have htrimne : ∀ c ∈ entryCells e, trimChars c ≠ [] := by
    intro c hcm
    simp only [entryCells, List.mem_cons, List.not_mem_nil, or_false] at hcm
    rcases hcm with rfl | rfl | rfl | rfl | rfl | rfl | rfl
    · exact hemne
    · exact hstne
    · rw [hc3]
      cases hu : e.deployUrl with
      | none => simp [deployCell, hu]
      | some u => simp [deployCell, hu, runCell]
    · rw [hc1]; simp [commitCell]
    · exact hbtne
    · cases hd : e.buildDuration with
      | none => simp only [durationCell, hd]; decide
      | some d => simp only [durationCell, hd]; exact (hdurwf d hd).2
    · rw [hc2]; simp [runCell]
  have hcells : splitCells (entry e).data =
      [trimChars e.emoji.data, trimChars e.status.data, deployCell e,
       commitCell e.commitSha.data e.commitLink.data,
       trimChars e.buildTime.data, trimChars (durationCell e),
       runCell e.runLink.data] := by
    rw [hrow, splitCells_rowData _ hnonnil hpipe htrimne]
    simp only [entryCells, List.map_cons, List.map_nil, hc1, hc2, hc3]
  have hdur_eq : (if trimChars (durationCell e) = ['~'] then none
      else some (⟨trimChars (durationCell e)⟩ : String)) = decodedDuration e := by
    cases hd : e.buildDuration with
    | none => simp only [durationCell, decodedDuration, hd]; decide
    | some d => simp only [durationCell, decodedDuration, hd]
  have hparse : parseBuildEntry (entry e).data = .ok
      { emoji := ⟨trimChars e.emoji.data⟩, status := ⟨trimChars e.status.data⟩,
        deployUrl := e.deployUrl, commitSha := ⟨e.commitSha.data ++ [backtick]⟩,
        commitLink := ⟨e.commitLink.data⟩, buildTime := ⟨trimChars e.buildTime.data⟩,
        buildDuration := decodedDuration e, runLink := ⟨e.runLink.data⟩ } := by
    cases hu : e.deployUrl with
    | none =>
      have hcells' := hcells
      rw [show deployCell e = ['~'] from by simp [deployCell, hu]] at hcells'
      have h := parseBuildEntry_of_cells (entry e).data
        (trimChars e.emoji.data) (trimChars e.status.data)
        (trimChars e.buildTime.data) (trimChars (durationCell e))
        e.commitSha.data e.commitLink.data e.runLink.data hcells' hclj hrlj
        hsha.2.1 hsha.2.2 hcl.2.1 hcl.2.2 hrl.2.1 hrl.2.2
      rw [hdur_eq] at h
      exact h
    | some u =>
      have hcells' := hcells
      rw [show deployCell e = runCell u.data from by simp [deployCell, hu]] at hcells'
      have h := parseBuildEntry_of_cells_dep (entry e).data
        (trimChars e.emoji.data) (trimChars e.status.data)
        (trimChars e.buildTime.data) (trimChars (durationCell e))
        e.commitSha.data e.commitLink.data e.runLink.data u.data hcells'
        (hdepwf u hu).2 (hdepwf u hu).1.2.1 (hdepwf u hu).1.2.2
        hclj hrlj hsha.2.1 hsha.2.2 hcl.2.1 hcl.2.2 hrl.2.1 hrl.2.2
      rw [hdur_eq] at h
      rw [h]
  obtain ⟨d, t, hdt⟩ : ∃ d t, e.emoji.data = d :: t := by
    cases hed : e.emoji.data with
    | nil => rw [hed] at hemne; exact absurd rfl hemne
    | cons d t => exact ⟨d, t, rfl⟩
  have hd : d ≠ '|' := by
    intro h
    exact hem.1 (by rw [hdt, h]; exact List.mem_cons_self _ _)
  have hsel : isEntryLine (entry e).data = true := by
    rw [isEntryLine, hrow]
    rw [matchesRegex_rowData _ hnonnil hnr hnn]
    have hhd : startsWithL (rowData (entryCells e)) HEADER_ROW.data = false :=
      rowData_not_header _ _ d t hdt hd
    have hsp : startsWithL (rowData (entryCells e)) SEPARATOR_ROW.data = false :=
      rowData_not_separator _ _
    rw [hhd, hsp]
    rfl
  have hll : ledgerLines (entry e) = [(entry e).data] := by
    apply ledgerLines_single
    · rw [hrow]; exact hnn
    · rw [hrow]; exact dropTrailingCR_rowData _ hnonnil
  have hcoll : collectEntries (ledgerLines (entry e)) = .ok
      [{ emoji := ⟨trimChars e.emoji.data⟩, status := ⟨trimChars e.status.data⟩,
         deployUrl := e.deployUrl, commitSha := ⟨e.commitSha.data ++ [backtick]⟩,
         commitLink := ⟨e.commitLink.data⟩, buildTime := ⟨trimChars e.buildTime.data⟩,
         buildDuration := decodedDuration e, runLink := ⟨e.runLink.data⟩ }] := by
    rw [hll]
    simp [collectEntries, hsel, hparse]
  rw [getBuildState, hcoll]

/-- Specialization of `getBuildState_entry` to an entry with both
optional fields absent: both decode back to absent. -/
theorem getBuildState_entry_absent (e : BuildEntry)
    (hdep : e.deployUrl = none) (hdur : e.buildDuration = none)
    (hem : cleanField e.emoji) (hst : cleanField e.status)
    (hsha : cleanField e.commitSha) (hcl : cleanField e.commitLink)
    (hbt : cleanField e.buildTime) (hrl : cleanField e.runLink)
    (hemne : trimChars e.emoji.data ≠ []) (hstne : trimChars e.status.data ≠ [])
    (hbtne : trimChars e.buildTime.data ≠ [])
    (hclj : ']' ∉ e.commitLink.data) (hrlj : ']' ∉ e.runLink.data) :
    getBuildState (entry e) = .ok {
      latest := { emoji := ⟨trimChars e.emoji.data⟩,
                  status := ⟨trimChars e.status.data⟩,
                  deployUrl := none,
                  commitSha := ⟨e.commitSha.data ++ [backtick]⟩,
                  commitLink := e.commitLink,
                  buildTime := ⟨trimChars e.buildTime.data⟩,
                  buildDuration := none,
                  runLink := e.runLink },
      previous := [] } := by
  have h := getBuildState_entry e hem hst hsha hcl hbt hrl hemne hstne hbtne
    hclj hrlj
    (fun u hu => by rw [hdep] at hu; cases hu)
    (fun dd hd => by rw [hdur] at hd; cases hd)
  rw [hdep, show decodedDuration e = none from by simp [decodedDuration, hdur]] at h
  exact h


/-- The cell pipeline on the rendered row of a clean entry recovers the
seven trimmed cells. -/
theorem splitCells_entry (e : BuildEntry)
    (hem : cleanField e.emoji) (hst : cleanField e.status)
    (hsha : cleanField e.commitSha) (hcl : cleanField e.commitLink)
    (hbt : cleanField e.buildTime) (hrl : cleanField e.runLink)
    (hemne : trimChars e.emoji.data ≠ []) (hstne : trimChars e.status.data ≠ [])
    (hbtne : trimChars e.buildTime.data ≠ [])
    (hdepwf : ∀ u, e.deployUrl = some u → cleanField u)
    (hdurwf : ∀ d, e.buildDuration = some d → cleanField d ∧ trimChars d.data ≠ []) :
    splitCells (entry e).data =
      [trimChars e.emoji.data, trimChars e.status.data, deployCell e,
       commitCell e.commitSha.data e.commitLink.data,
       trimChars e.buildTime.data, trimChars (durationCell e),
       runCell e.runLink.data] := by
  have hrow : (entry e).data = rowData (entryCells e) := entry_data_row e
  have hnonnil : entryCells e ≠ [] := by simp [entryCells]
  have hpipe : ∀ c ∈ entryCells e, '|' ∉ c :=
    entryCells_char_free e '|' (by decide) (by decide) (by decide) (by decide)
      (by decide) (by decide) (by decide) (by decide) (by decide) (by decide)
      hem.1 hst.1 hsha.1 hcl.1 hbt.1 hrl.1
      (fun u hu => (hdepwf u hu).1) (fun d hd => (hdurwf d hd).1.1)
  have hc1 : trimChars (commitCell e.commitSha.data e.commitLink.data) =
      commitCell e.commitSha.data e.commitLink.data := trimChars_linkCell _
  have hc2 : trimChars (runCell e.runLink.data) = runCell e.runLink.data :=
    trimChars_linkCell _
  have hc3 : trimChars (deployCell e) = deployCell e := by
    cases hu : e.deployUrl with
    | none => simp only [deployCell, hu]; decide
    | some u => simp only [deployCell, hu]; exact trimChars_linkCell _
  have htrimne : ∀ c ∈ entryCells e, trimChars c ≠ [] := by
    intro c hcm
    simp only [entryCells, List.mem_cons, List.not_mem_nil, or_false] at hcm
    rcases hcm with rfl | rfl | rfl | rfl | rfl | rfl | rfl
    · exact hemne
    · exact hstne
    · rw [hc3]
      cases hu : e.deployUrl with
      | none => simp [deployCell, hu]
      | some u => simp [deployCell, hu, runCell]
    · rw [hc1]; simp [commitCell]
    · exact hbtne
    · cases hd : e.buildDuration with
      | none => simp only [durationCell, hd]; decide
      | some d => simp only [durationCell, hd]; exact (hdurwf d hd).2
    · rw [hc2]; simp [runCell]
  rw [hrow, splitCells_rowData _ hnonnil hpipe htrimne]
  simp only [entryCells, List.map_cons, List.map_nil, hc1, hc2, hc3]

/-- Claim C8: placeholder fidelity, one conjunct per optional field.
For every clean entry with `deployUrl` absent — whatever its
`buildDuration` — the rendered row carries the reserved placeholder
token in the deploy-url cell and decoding the row yields `deployUrl`
absent again, never an empty-string URL; and symmetrically, for every
clean entry with `buildDuration` absent — whatever its `deployUrl` —
the duration cell carries the placeholder and decodes back to absent. -/
theorem placeholder_fidelity :
    (∀ e : BuildEntry, e.deployUrl = none →
      cleanField e.emoji → cleanField e.status → cleanField e.commitSha →
      cleanField e.commitLink → cleanField e.buildTime → cleanField e.runLink →
      trimChars e.emoji.data ≠ [] → trimChars e.status.data ≠ [] →
      trimChars e.buildTime.data ≠ [] →
      ']' ∉ e.commitLink.data → ']' ∉ e.runLink.data →
      (∀ d, e.buildDuration = some d → cleanField d ∧ trimChars d.data ≠ []) →
      (splitCells (entry e).data).get? 2 = some NULLC ∧
      ∃ pe, getBuildState (entry e) = .ok { latest := pe, previous := [] } ∧
        pe.deployUrl = none) ∧
    (∀ e : BuildEntry, e.buildDuration = none →
      cleanField e.emoji → cleanField e.status → cleanField e.commitSha →
      cleanField e.commitLink → cleanField e.buildTime → cleanField e.runLink →
      trimChars e.emoji.data ≠ [] → trimChars e.status.data ≠ [] →
      trimChars e.buildTime.data ≠ [] →
      ']' ∉ e.commitLink.data → ']' ∉ e.runLink.data →
      (∀ u, e.deployUrl = some u → cleanField u ∧ ']' ∉ u.data) →
      (splitCells (entry e).data).get? 5 = some NULLC ∧
      ∃ pe, getBuildState (entry e) = .ok { latest := pe, previous := [] } ∧
        pe.buildDuration = none) := by
  constructor
  · intro e hdep hem hst hsha hcl hbt hrl hemne hstne hbtne hclj hrlj hdurwf
    have hdepwf : ∀ u, e.deployUrl = some u → cleanField u ∧ ']' ∉ u.data :=
      fun u hu => by rw [hdep] at hu; cases hu
    have hcells := splitCells_entry e hem hst hsha hcl hbt hrl hemne hstne hbtne
      (fun u hu => (hdepwf u hu).1) hdurwf
    constructor
    · rw [hcells]
      simp [deployCell, hdep, NULLC]
    · exact ⟨_, getBuildState_entry e hem hst hsha hcl hbt hrl hemne hstne hbtne
        hclj hrlj hdepwf hdurwf, hdep⟩
  · intro e hdur hem hst hsha hcl hbt hrl hemne hstne hbtne hclj hrlj hdepwf
    have hdurwf : ∀ d, e.buildDuration = some d → cleanField d ∧ trimChars d.data ≠ [] :=
      fun d hd => by rw [hdur] at hd; cases hd
    have hcells := splitCells_entry e hem hst hsha hcl hbt hrl hemne hstne hbtne
      (fun u hu => (hdepwf u hu).1) hdurwf
    constructor
    · rw [hcells]
      simp [durationCell, hdur, NULLC, show trimChars ['~'] = ['~'] from rfl]
    · exact ⟨_, getBuildState_entry e hem hst hsha hcl hbt hrl hemne hstne hbtne
        hclj hrlj hdepwf hdurwf, by simp [decodedDuration, hdur]⟩

/-- A cleared-URL success entry: deploy url absent, duration present. -/
def c8DeployAbsent : BuildEntry :=
  { emoji := "🟢", status := "Success", deployUrl := none,
    commitSha := "abc1234", commitLink := "https://g/c", buildTime := "Jan 1",
    buildDuration := some "1m 2s", runLink := "https://g/r" }

/-- An in-progress entry: deploy url present, duration absent. -/
def c8DurationAbsent : BuildEntry :=
  { emoji := "🟡", status := "In&#8209;progress",
    deployUrl := some "https://s/c/abc1234/", commitSha := "abc1234",
    commitLink := "https://g/c", buildTime := "Jan 1",
    buildDuration := none, runLink := "https://g/r" }

theorem placeholder_fidelity_witness :
    ((splitCells (entry c8DeployAbsent).data).get? 2 = some NULLC ∧
      ∃ pe, getBuildState (entry c8DeployAbsent) =
          .ok { latest := pe, previous := [] } ∧ pe.deployUrl = none) ∧
    ((splitCells (entry c8DurationAbsent).data).get? 5 = some NULLC ∧
      ∃ pe, getBuildState (entry c8DurationAbsent) =
          .ok { latest := pe, previous := [] } ∧ pe.buildDuration = none) :=
  ⟨placeholder_fidelity.1 c8DeployAbsent rfl
      (by decide) (by decide) (by decide) (by decide) (by decide) (by decide)
      (by decide) (by decide) (by decide) (by decide) (by decide)
      (fun d hd => by cases hd; exact ⟨by decide, by decide⟩),
   placeholder_fidelity.2 c8DurationAbsent rfl
      (by decide) (by decide) (by decide) (by decide) (by decide) (by decide)
      (by decide) (by decide) (by decide) (by decide) (by decide)
      (fun u hu => by cases hu; exact ⟨by decide, by decide⟩)⟩

/-- The state the decoder actually returns for the bogus-token row: the
unrecognized tokens carried verbatim, the sha with a trailing backtick. -/
def bogusDecoded : BuildEntry :=
  { emoji := "🔵", status := "Bogus", deployUrl := none,
    commitSha := "abc1234\x60", commitLink := "https://c", buildTime := "Jan 1",
    buildDuration := none, runLink := "https://r" }

/-- Claim C2, counterexample: a row whose glyph cell holds `🔵` and whose
status cell holds `Bogus` — both outside the recognized enumerations —
decodes successfully, returning a state containing that row verbatim,
instead of failing the decode. -/
theorem decode_accepts_unknown_tokens_cex :
    getBuildState "| 🔵 | Bogus | ~ | [`abc1234`](https://c) | Jan 1 | ~ | [link](https://r) |" =
      .ok { latest := bogusDecoded, previous := [] } := by
  rfl

/-- Claim C2, amended: the decoder validates the cell count and the link
grammar but never the status or glyph tokens — a well-formed row whose
glyph and status cells hold tokens outside the recognized enumerations
still decodes, and the unrecognized tokens are carried into the resulting
state verbatim. -/
theorem decode_accepts_unknown_tokens (e : BuildEntry)
    (hdep : e.deployUrl = none) (hdur : e.buildDuration = none)
    (hem : cleanField e.emoji) (hst : cleanField e.status)
    (hsha : cleanField e.commitSha) (hcl : cleanField e.commitLink)
    (hbt : cleanField e.buildTime) (hrl : cleanField e.runLink)
    (hemid : trimChars e.emoji.data = e.emoji.data)
    (hstid : trimChars e.status.data = e.status.data)
    (hemne : e.emoji.data ≠ []) (hstne : e.status.data ≠ [])
    (hbtne : trimChars e.buildTime.data ≠ [])
    (hclj : ']' ∉ e.commitLink.data) (hrlj : ']' ∉ e.runLink.data)
    (hbad : ¬legalEmoji e.emoji ∨ ¬legalStatus e.status) :
    ∃ st, getBuildState (entry e) = .ok st ∧
      st.latest.emoji = e.emoji ∧ st.latest.status = e.status ∧
      (¬legalEmoji st.latest.emoji ∨ ¬legalStatus st.latest.status) := by
  have hemEq : String.mk (trimChars e.emoji.data) = e.emoji := by
    rw [hemid, mk_data]
  have hstEq : String.mk (trimChars e.status.data) = e.status := by
    rw [hstid, mk_data]
  refine ⟨_, getBuildState_entry_absent e hdep hdur hem hst hsha hcl hbt hrl
    (by rw [hemid]; exact hemne) (by rw [hstid]; exact hstne) hbtne hclj hrlj,
    hemEq, hstEq, ?_⟩
  rcases hbad with h | h
  · exact Or.inl (show ¬legalEmoji (String.mk (trimChars e.emoji.data)) from by
      rw [hemEq]; exact h)
  · exact Or.inr (show ¬legalStatus (String.mk (trimChars e.status.data)) from by
      rw [hstEq]; exact h)

/-- An entry whose glyph is legal but whose status token is not, used by
the C2 witness to exercise the single-unrecognized-cell case. -/
def bogusStatusEntry : BuildEntry :=
  { emoji := "🟡", status := "Bogus", deployUrl := none,
    commitSha := "abc1234", commitLink := "https://c", buildTime := "Jan 1",
    buildDuration := none, runLink := "https://r" }

theorem decode_accepts_unknown_tokens_witness :
    ∃ st, getBuildState (entry bogusStatusEntry) = .ok st ∧
      st.latest.emoji = bogusStatusEntry.emoji ∧
      st.latest.status = bogusStatusEntry.status ∧
      (¬legalEmoji st.latest.emoji ∨ ¬legalStatus st.latest.status) :=
  decode_accepts_unknown_tokens bogusStatusEntry rfl rfl
    (by decide) (by decide) (by decide) (by decide) (by decide) (by decide)
    (by decide) (by decide) (by decide) (by decide) (by decide)
    (by decide) (by decide) (Or.inr (by decide))

/-- The build entry of the round-trip failing input. -/
def c1Entry : BuildEntry :=
  { emoji := "🟡", status := "In&#8209;progress",
    deployUrl := some "https://s/c/abc1234/", commitSha := "abc1234",
    commitLink := "https://g/c/abc", buildTime := "Jan 1 at 9:00 AM EST",
    buildDuration := none, runLink := "https://g/r/1" }

/-- The comment arguments of the round-trip failing input. -/
def c1Args : CommentArgs :=
  { prId := "5", url := "https://s/pr/5/", tag := none,
    state := { latest := c1Entry, previous := [] } }

/-- What decoding the rendered comment actually returns at the failing
input: the same entry with a trailing backtick on the commit sha. -/
def c1Decoded : BuildEntry := { c1Entry with commitSha := "abc1234`" }

set_option maxRecDepth 8192 in
/-- Claim C1, evaluated at the failing input: rendering the in-progress
comment for a fully legal single-entry state and decoding it back does
not return the original state — the decoded `commitSha` carries a
trailing backtick, because `parseBuildEntry` removes only the first
backtick of the display text wrapped by `entry`. -/
theorem roundtrip_fails_on_backtick :
    getBuildState (building c1Args) = .ok { latest := c1Decoded, previous := [] } ∧
    getBuildState (building c1Args) ≠ .ok c1Args.state ∧
    c1Decoded.commitSha = c1Args.state.latest.commitSha ++ "`" := by
  have h1 : getBuildState (building c1Args) =
      .ok { latest := c1Decoded, previous := [] } := by rfl
  refine ⟨h1, ?_, rfl⟩
  rw [h1]
  intro h
  injection h with h2
  have h3 : c1Decoded = c1Args.state.latest := congrArg BuildState.latest h2
  exact absurd h3 (by decide)

end StagingComment
